import Mathlib

/-!
Verification of the Wikipedia Graph Explorer specification against the
repository's code.

The repository ships the React/TypeScript frontend: the API client
(`src/unnamed/part_011`), the Zustand graph store
(`src/frontend/src/store/graphStore.ts`), the explorer page
(`src/frontend/src/pages/ExplorerPage.tsx`) and the vis-network adapter
(`src/frontend/src/components/GraphVisualization.tsx`).  Those parts are
embedded directly from the source below.

The backend graph-exploration engine (bounded BFS builder, graph merger,
fetch coordinator and cache) is not part of the repository snapshot under
`src/`; only its HTTP callers are.  Definitions in the `Engine` and
`Coordinator` namespaces are therefore modelled from the specification
(sections 4.1 to 4.3 of `spec.md`), as marked in their doc comments.
-/

namespace Engine

/-- Modelled from the spec: an entity node of the knowledge graph (section 3,
"Entity reference").  The backend engine is absent from `src/`; `id` is the
canonical key derived from the title and `depth` is the first-discovery
distance from the root.  Fields irrelevant to the claims (`summary`, `url`,
`importance`, `externalId`, `imageUrl`) are elided. -/
structure Node where
  id : String
  title : String
  depth : Nat
deriving DecidableEq

/-- Modelled from the spec: a directed relation record (section 3,
"Relation").  `src`/`dst` are the ordered `(from, to)` pair and `weight` is
incremented when the same directed pair is discovered again. -/
structure Edge where
  src : String
  dst : String
  weight : Nat
deriving DecidableEq

/-- Modelled from the spec: a graph owning a node set, an edge set and a
root id (section 3, "Graph").  The scalar summaries (`nodeCount`,
`edgeCount`, `maxDepthObserved`) are derived functions below. -/
structure Graph where
  nodes : List Node
  edges : List Edge
  root : String
deriving DecidableEq

/-- Whether a node with the given canonical id is present in the graph. -/
def hasNode (g : Graph) (i : String) : Bool :=
  g.nodes.any (fun v => v.id == i)

/-- The depth recorded for a node id, if present. -/
def depthOf (g : Graph) (i : String) : Option Nat :=
  (g.nodes.find? (fun v => v.id == i)).map (fun v => v.depth)

/-- Whether an edge record with the given ordered `(from, to)` pair exists. -/
def edgeMem (es : List Edge) (f t : String) : Bool :=
  es.any (fun e => e.src == f && e.dst == t)

/-- The weight of the first edge record with the given ordered pair. -/
def weightOf (es : List Edge) (f t : String) : Option Nat :=
  (es.find? (fun e => e.src == f && e.dst == t)).map (fun e => e.weight)

/-- Increment the weight of the edge record(s) with the given ordered pair. -/
def bumpWeight (es : List Edge) (f t : String) : List Edge :=
  es.map (fun e =>
    if e.src == f && e.dst == t then { e with weight := e.weight + 1 } else e)

/-- Modelled from the spec: edge recording during a build or merge
(sections 4.2 step 2 and 4.3).  `pre` is the set of edges that existed
prior to the current call: an edge already present before the call is left
untouched (this is what makes expansion idempotent), a pair discovered
again within the call has its weight incremented, and a fresh pair is
appended with weight 1. -/
def addEdgeMerge (pre es : List Edge) (f t : String) : List Edge :=
  if edgeMem pre f t then es
  else if edgeMem es f t then bumpWeight es f t
  else es ++ [{ src := f, dst := t, weight := 1 }]

/-- State threaded through the processing of one BFS level: the graph so
far and the ids of the nodes freshly inserted during this level (the next
frontier). -/
structure LevelSt where
  g : Graph
  fresh : List String
deriving DecidableEq

/-- Modelled from the spec: processing of one discovered outlink title `t`
of a frontier node `f` (section 4.2 step 2 and 3).  If the target is
already present only the edge is added or incremented (no new node, no
depth change); if it is absent and the node cap is not reached, a new node
is inserted at the current level depth `d` together with the edge; once
`nodeCount` has reached `maxNodes` no new node is inserted and an outlink
to an absent node produces nothing (no dangling edge). -/
def processOutlink (pre : List Edge) (maxNodes d : Nat) (f : String)
    (st : LevelSt) (t : String) : LevelSt :=
  if hasNode st.g t then
    { st with g := { st.g with edges := addEdgeMerge pre st.g.edges f t } }
  else if st.g.nodes.length < maxNodes then
    { g := { st.g with
        nodes := st.g.nodes ++ [{ id := t, title := t, depth := d }],
        edges := addEdgeMerge pre st.g.edges f t },
      fresh := st.fresh ++ [t] }
  else st

/-- Modelled from the spec: processing all outlinks of one frontier node
(section 4.2 step 1 and 2).  `outl` is the content source giving the
ordered outlink titles of an entity. -/
def processNode (outl : String → List String) (pre : List Edge)
    (maxNodes d : Nat) (st : LevelSt) (f : String) : LevelSt :=
  (outl f).foldl (processOutlink pre maxNodes d f) st

/-- Modelled from the spec: processing one whole BFS depth level
(section 4.2 and section 5: all nodes at depth `d - 1` are resolved before
any node at depth `d` is discovered). -/
def processLevel (outl : String → List String) (pre : List Edge)
    (maxNodes d : Nat) (g : Graph) (frontier : List String) : LevelSt :=
  frontier.foldl (processNode outl pre maxNodes d) { g := g, fresh := [] }

/-- Modelled from the spec: the level-by-level BFS driver (section 4.2
step 4).  `lvls` is the number of levels still allowed, `d` the depth that
newly discovered nodes of the next level receive; the loop stops when the
level budget is used up or the frontier is empty. -/
def bfsLoop (outl : String → List String) (pre : List Edge)
    (maxNodes : Nat) : Nat → Graph → List String → Nat → Graph
  | 0, g, _, _ => g
  | lvls + 1, g, frontier, d =>
    if frontier.isEmpty then g
    else
      let st := processLevel outl pre maxNodes d g frontier
      bfsLoop outl pre maxNodes lvls st.g st.fresh (d + 1)

/-- Modelled from the spec: `Explore(rootTitle, maxDepth, maxNodes)`
(sections 4.2 and 6).  The root node is inserted at depth 0 and a bounded
BFS runs for at most `maxDepth` levels.  The unresolved-root flag of the
edge-case policy is elided (it does not affect the claims). -/
def explore (outl : String → List String) (rootTitle : String)
    (maxDepth maxNodes : Nat) : Graph :=
  let g0 : Graph :=
    { nodes := [{ id := rootTitle, title := rootTitle, depth := 0 }],
      edges := [], root := rootTitle }
  bfsLoop outl [] maxNodes maxDepth g0 [rootTitle] 1

/-- Modelled from the spec: the merge work of `Expand` (section 4.3).  The
target node is treated as a temporary root for `extraDepth` levels of the
bounded BFS; newly discovered nodes get depths relative to the original
root's coordinate system; `pre` is fixed to the edges existing prior to
the call so that edge weights are only incremented for pairs that did not
exist before this call.  A missing target leaves the graph unchanged (the
wrapper below surfaces it as an error instead). -/
def expandCore (outl : String → List String) (g : Graph) (nodeId : String)
    (extraDepth maxNodes : Nat) : Graph :=
  match depthOf g nodeId with
  | some d0 => bfsLoop outl g.edges maxNodes extraDepth g [nodeId] (d0 + 1)
  | none => g

/-- Error text for a merge attempted on a graph missing the target node. -/
def invariantViolationMsg : String := "InvariantViolation: expand target not in graph"

/-- Modelled from the spec: `Expand(graph, nodeId, extraDepth)` (sections
4.3, 6 and 7).  A merge attempted on a graph missing the target node is an
`InvariantViolation` surfaced to the caller; otherwise the merged graph is
returned. -/
def expand (outl : String → List String) (g : Graph) (nodeId : String)
    (extraDepth maxNodes : Nat) : Except String Graph :=
  if hasNode g nodeId then .ok (expandCore outl g nodeId extraDepth maxNodes)
  else .error invariantViolationMsg

/-- Modelled from the spec: the BFS driver under the overall soft time
budget (section 5).  Real time is abstracted as a fuel budget spent one
unit per level; when the budget is exhausted the loop returns the best
graph constructed so far as a success, never as an error. -/
def bfsLoopBudget (outl : String → List String) (pre : List Edge)
    (maxNodes : Nat) : Nat → Nat → Graph → List String → Nat → Except String Graph
  | _, 0, g, _, _ => .ok g
  | 0, _, g, _, _ => .ok g
  | lvls + 1, budget + 1, g, frontier, d =>
    if frontier.isEmpty then .ok g
    else
      let st := processLevel outl pre maxNodes d g frontier
      bfsLoopBudget outl pre maxNodes lvls budget st.g st.fresh (d + 1)

/-- Modelled from the spec: `Explore` running under the soft time budget
(section 5). -/
def exploreWithBudget (outl : String → List String) (budget : Nat)
    (rootTitle : String) (maxDepth maxNodes : Nat) : Except String Graph :=
  let g0 : Graph :=
    { nodes := [{ id := rootTitle, title := rootTitle, depth := 0 }],
      edges := [], root := rootTitle }
  bfsLoopBudget outl [] maxNodes maxDepth budget g0 [rootTitle] 1

/-- Modelled from the spec: `Expand` running under the soft time budget
(section 5). -/
def expandWithBudget (outl : String → List String) (budget : Nat)
    (g : Graph) (nodeId : String) (extraDepth maxNodes : Nat) :
    Except String Graph :=
  if hasNode g nodeId then
    match depthOf g nodeId with
    | some d0 => bfsLoopBudget outl g.edges maxNodes extraDepth budget g [nodeId] (d0 + 1)
    | none => .error invariantViolationMsg
  else .error invariantViolationMsg

/-- Auxiliary invariant for the idempotence argument: after an expansion
of `n` under node cap `N`, every outlink target of `n` is either present
with the edge from `n` recorded, or absent with the node cap saturated. -/
def expandedSat (outl : String → List String) (n : String) (N : Nat)
    (g : Graph) : Prop :=
  ∀ t ∈ outl n,
    (hasNode g t = true → edgeMem g.edges n t = true) ∧
    (hasNode g t = false → N ≤ g.nodes.length)

/-- The number of nodes of a graph (the spec's `nodeCount` summary). -/
def nodeCount (g : Graph) : Nat := g.nodes.length

/-- The largest depth present in the graph (the spec's `maxDepthObserved`
summary). -/
def maxDepthObserved (g : Graph) : Nat :=
  (g.nodes.map (fun v => v.depth)).foldr max 0

/-- Every edge's endpoints are present in the node set (the spec's
no-dangling-edge invariant). -/
def noDangling (g : Graph) : Prop :=
  ∀ e ∈ g.edges, hasNode g e.src = true ∧ hasNode g e.dst = true

/-- There is at most one edge record per ordered `(from, to)` pair. -/
def pairsNodup (es : List Edge) : Prop :=
  (es.map (fun e => (e.src, e.dst))).Nodup

/-- Every edge record carries a weight of at least 1. -/
def weightsPos (es : List Edge) : Prop :=
  ∀ e ∈ es, 1 ≤ e.weight

end Engine

namespace Frontend

/-- A graph node as delivered to the frontend
(`src/frontend/src/types/index.ts`, `GraphNode`).  JavaScript-falsy string
fields are modelled by the empty string; fields that only carry visual
styling (`color`, `size`, `font`, ...) and metadata (`summary`, `url`,
`page_id`, `centrality`) are elided because no checked code path reads
them. -/
structure VisNode where
  id : String
  label : String
  depth : Nat
deriving DecidableEq

/-- A graph edge as delivered to the frontend
(`src/frontend/src/types/index.ts`, `GraphEdge`).  The runtime objects may
carry either the `from`/`to` or the `from_node`/`to_node` spelling;
`fromAttr`/`toAttr` stand for the optional `from`/`to` properties, with the
empty string modelling an absent or falsy value exactly as JavaScript's
truthiness test does. -/
structure VisEdge where
  fromAttr : String
  toAttr : String
  from_node : String
  to_node : String
  idAttr : String
  weight : Nat
deriving DecidableEq

/-- The frontend `GraphData` payload (`src/frontend/src/types/index.ts`). -/
structure FGraph where
  nodes : List VisNode
  edges : List VisEdge
  root_node : String
  total_nodes : Nat
  total_edges : Nat
  max_depth : Nat
deriving DecidableEq

/-- JavaScript `a || b` on strings, where only the empty string is falsy. -/
def jsOr (a b : String) : String := if a == "" then b else a

/-- The edge's from endpoint as computed by `transformDataForVis`
(`GraphVisualization.tsx` line 71: `edge.from || edge.from_node`). -/
def resolvedFrom (e : VisEdge) : String := jsOr e.fromAttr e.from_node

/-- The edge's to endpoint as computed by `transformDataForVis`
(`GraphVisualization.tsx` line 72: `edge.to || edge.to_node`). -/
def resolvedTo (e : VisEdge) : String := jsOr e.toAttr e.to_node

/-- The node filter of `transformDataForVis` (`GraphVisualization.tsx`
lines 40-46): nodes with a falsy `id` or `label` are dropped. -/
def validNodes (ns : List VisNode) : List VisNode :=
  ns.filter (fun n => !(n.id == "") && !(n.label == ""))

/-- The edge filter of `transformDataForVis` (`GraphVisualization.tsx`
lines 70-89): edges with a falsy endpoint, or whose endpoints are not
among the valid nodes, are dropped. -/
def validEdges (ns : List VisNode) (es : List VisEdge) : List VisEdge :=
  es.filter (fun e =>
    !(resolvedFrom e == "") && !(resolvedTo e == "") &&
    (validNodes ns).any (fun v => v.id == resolvedFrom e) &&
    (validNodes ns).any (fun v => v.id == resolvedTo e))

/-- A vis-network node record produced by `transformDataForVis`
(`GraphVisualization.tsx` lines 48-67); styling fields are elided. -/
structure VisNodeOut where
  id : String
  label : String
deriving DecidableEq

/-- A vis-network edge record produced by `transformDataForVis`
(`GraphVisualization.tsx` lines 91-110); styling fields are elided.
`width` is `Math.max(1, (edge.weight || 1) * 2)`. -/
structure VisEdgeOut where
  eid : String
  src : String
  dst : String
  width : Nat
deriving DecidableEq

/-- The embedding of `transformDataForVis` (`GraphVisualization.tsx`
lines 38-135) on the `displayData` graph.  The final duplicate-edge-id
pass (lines 112-132) renames only the `id` field of edge records already
in the list; it changes neither the endpoints nor the node list and is
elided here. -/
def transformDataForVis (g : FGraph) : List VisNodeOut × List VisEdgeOut :=
  ((validNodes g.nodes).map (fun n => { id := n.id, label := n.label }),
   (validEdges g.nodes g.edges).map (fun e =>
     { eid := jsOr e.idAttr (resolvedFrom e ++ "-" ++ resolvedTo e),
       src := resolvedFrom e,
       dst := resolvedTo e,
       width := max 1 ((if e.weight == 0 then 1 else e.weight) * 2) }))

/-- The state slice of the Zustand graph store touched by the explore and
expand actions (`src/frontend/src/store/graphStore.ts` lines 58-65). -/
structure StoreState where
  currentGraph : Option FGraph
  isLoading : Bool
  error : Option String
  explorationHistory : List String
deriving DecidableEq

/-- The embedding of `addToHistory` (`graphStore.ts` lines 275-279). -/
def addToHistory (s : StoreState) (articleTitle : String) : StoreState :=
  { s with explorationHistory :=
      (articleTitle :: s.explorationHistory.filter (fun h => !(h == articleTitle))).take 10 }

/-- The embedding of the `exploreFromNode` action (`graphStore.ts` lines
96-117).  The result of the awaited `api.explore` call is passed in as an
`Except`: `ok` carries the response's `graph_data`, `error` the message
computed in the catch block.  Toasts are elided. -/
def exploreFromNodeRun (s : StoreState) (articleTitle : String)
    (apiResult : Except String FGraph) : StoreState :=
  let s1 := { s with isLoading := true, error := none }
  let s2 :=
    match apiResult with
    | .ok gd => addToHistory { s1 with currentGraph := some gd } articleTitle
    | .error m => { s1 with error := some m }
  { s2 with isLoading := false }

/-- The embedding of the `expandNode` action (`graphStore.ts` lines
128-156).  With no graph loaded the action returns early before any API
call; otherwise the awaited `api.expand` result is handled as in the
source, with the `finally` block clearing the loading flag. -/
def expandNodeRun (s : StoreState) (apiResult : Except String FGraph) :
    StoreState :=
  match s.currentGraph with
  | none => s
  | some _ =>
    let s1 := { s with isLoading := true, error := none }
    let s2 :=
      match apiResult with
      | .ok gd => { s1 with currentGraph := some gd }
      | .error m => { s1 with error := some m }
    { s2 with isLoading := false }

/-- The member names defined by the store implementation object passed to
`create` in `graphStore.ts` (lines 58-292), in source order. -/
def graphStoreMembers : List String :=
  ["currentGraph", "selectedNode", "isLoading", "error", "searchResults",
   "savedExplorations", "explorationHistory", "setCurrentGraph",
   "setSelectedNode", "setLoading", "setError", "setSearchResults",
   "setSavedExplorations", "exploreFromNode", "expandSelectedNode",
   "expandNode", "searchArticles", "saveCurrentExploration",
   "loadExploration", "deleteExploration", "clearGraph", "clearError",
   "addToHistory", "goBack", "canGoBack"]

/-- JavaScript property access on the store object: a defined member
yields its value, any other name yields `undefined` (here `none`). -/
def lookupStoreMember (value : α) (name : String) : Option α :=
  if graphStoreMembers.contains name then some value else none

/-- The page-level state observable from `handleNodeClick` in
`ExplorerPage.tsx`: the current graph, how many expansion requests have
been issued and how many warnings were logged by the catch block. -/
structure PageModel where
  currentGraph : Option FGraph
  expandRequestsIssued : Nat
  warningsLogged : Nat
deriving DecidableEq

/-- Name of the store member destructured by `ExplorerPage`
(`ExplorerPage.tsx` line 38). -/
def silentExpandName : String := "expandNodeSilently"

/-- The embedding of the silent-expansion block of `handleNodeClick`
(`ExplorerPage.tsx` lines 126-146).  `act` is the semantics the
destructured `expandNodeSilently` member would have if the store defined
it; awaiting a call of `undefined` throws a `TypeError`, which the catch
block swallows with a `console.warn`. -/
def handleNodeClickSilent (act : String → Nat → PageModel → PageModel)
    (st : PageModel) (nodeId : String) : PageModel :=
  match lookupStoreMember act silentExpandName with
  | none => { st with warningsLogged := st.warningsLogged + 1 }
  | some f => f nodeId 1 st

/-- The query parameters built by `ApiClient.exploreGraph`
(`src/unnamed/part_011` lines 170-185): `depth` always, `max_nodes` only
when `maxNodes` is truthy. -/
structure ExploreRequestParams where
  depth : Nat
  max_nodes : Option Nat
deriving DecidableEq

/-- JavaScript truthiness of the optional numeric `maxNodes` argument:
`undefined` and `0` are falsy, every other number is truthy. -/
def jsTruthyOptNat : Option Nat → Bool
  | none => false
  | some n => !(n == 0)

/-- The embedding of the parameter construction in
`ApiClient.exploreGraph` (`src/unnamed/part_011` lines 175-178):
`const params = { depth }; if (maxNodes) { params.max_nodes = maxNodes; }`. -/
def exploreGraphParams (depth : Nat) (maxNodes : Option Nat) :
    ExploreRequestParams :=
  if jsTruthyOptNat maxNodes then { depth := depth, max_nodes := maxNodes }
  else { depth := depth, max_nodes := none }

end Frontend

namespace Coordinator

/-- Modelled from the spec: an observable event of the fetch coordinator
(section 4.1).  The coordinator's code is absent from `src/`; concurrency
is modelled as an interleaving of atomic events: a caller's arrival at
`fetch(entityId)` and the completion of an outbound network fetch. -/
inductive FEvent where
  | request (caller : Nat) (entityId : String)
  | complete (entityId : String) (content : String)
deriving DecidableEq

/-- Modelled from the spec: the shared mutable state of the fetch
coordinator (section 4.1): the content cache, the in-flight map from
entity id to the callers awaiting that fetch, and a counter of outbound
network calls issued.  TTL expiry is elided (the claim concerns uncached
entities). -/
structure CoordState where
  cache : List (String × String)
  inflight : List (String × List Nat)
  networkCalls : Nat
deriving DecidableEq

/-- First value bound to a key in an association list. -/
def lookupKey (l : List (String × α)) (k : String) : Option α :=
  (l.find? (fun p => p.1 == k)).map (fun p => p.2)

/-- Modelled from the spec: one atomic step of the coordinator
(section 4.1).  A request is served from the cache when possible; on a
miss it joins an already in-flight fetch for the same entity instead of
issuing a second network call; only when no fetch is in flight does it
issue a new outbound call.  A completion delivers the fetched content to
every waiting caller and stores it in the cache.  The second component
lists the deliveries `(caller, content)` made by the step. -/
def stepEvent (s : CoordState) : FEvent → CoordState × List (Nat × String)
  | .request c id =>
    match lookupKey s.cache id with
    | some content => (s, [(c, content)])
    | none =>
      match lookupKey s.inflight id with
      | some _ =>
        ({ s with inflight := s.inflight.map (fun p =>
             if p.1 == id then (p.1, p.2 ++ [c]) else p) }, [])
      | none =>
        ({ s with inflight := s.inflight ++ [(id, [c])],
                  networkCalls := s.networkCalls + 1 }, [])
  | .complete id content =>
    match lookupKey s.inflight id with
    | some waiters =>
      ({ s with cache := s.cache ++ [(id, content)],
                inflight := s.inflight.filter (fun p => !(p.1 == id)) },
       waiters.map (fun c => (c, content)))
    | none => (s, [])

/-- Run a sequence of events, accumulating the deliveries in order. -/
def runEvents (s : CoordState) : List FEvent → CoordState × List (Nat × String)
  | [] => (s, [])
  | ev :: evs =>
    let st := stepEvent s ev
    let rest := runEvents st.1 evs
    (rest.1, st.2 ++ rest.2)

/-- The interleaving in which `k` concurrent callers all reach the
coordinator for the same uncached entity before its single fetch
completes. -/
def coalesceTrace (callers : List Nat) (id content : String) : List FEvent :=
  callers.map (fun c => FEvent.request c id) ++ [FEvent.complete id content]

end Coordinator

namespace Examples

/-- Article title used in concrete evaluations. -/
def titleA : String := "Quantum mechanics"

/-- Article title used in concrete evaluations. -/
def titleB : String := "Wave function"

/-- Article title used in concrete evaluations. -/
def titleC : String := "Photon"

/-- Article title used in concrete evaluations. -/
def titleD : String := "Atom"

/-- A small concrete content source: `titleA` links to `titleB` and
`titleC`; `titleB` links back to `titleA` and on to `titleD`. -/
def outlW : String → List String := fun t =>
  if t == titleA then [titleB, titleC]
  else if t == titleB then [titleA, titleD]
  else []

/-- A single-node concrete graph rooted at `titleA`. -/
def gW : Engine.Graph :=
  { nodes := [{ id := titleA, title := titleA, depth := 0 }],
    edges := [], root := titleA }

/-- A concrete frontend graph payload with one edge, one dangling edge and
one invalid node. -/
def fgW : Frontend.FGraph :=
  { nodes :=
      [{ id := titleA, label := titleA, depth := 0 },
       { id := titleB, label := titleB, depth := 1 },
       { id := "", label := titleC, depth := 1 }],
    edges :=
      [{ fromAttr := "", toAttr := "", from_node := titleA, to_node := titleB,
         idAttr := "", weight := 1 },
       { fromAttr := "", toAttr := "", from_node := titleA, to_node := titleD,
         idAttr := "", weight := 1 }],
    root_node := titleA, total_nodes := 3, total_edges := 2, max_depth := 1 }

/-- A concrete store state holding `fgW` as the current graph. -/
def storeW : Frontend.StoreState :=
  { currentGraph := some fgW, isLoading := false, error := none,
    explorationHistory := [titleA] }

/-- A concrete error message used to exercise the rejection paths. -/
def errW : String := "Request failed with status code 500"

/-- A concrete fetched content value for the coordinator model. -/
def contentW : String := "summary of Quantum mechanics"

/-- Three concrete concurrent callers. -/
def callersW : List Nat := [7, 8, 9]

/-- A coordinator state in which `titleA` is neither cached nor in
flight. -/
def coordW : Coordinator.CoordState :=
  { cache := [(titleB, contentW)], inflight := [(titleC, [3])],
    networkCalls := 5 }

/-- The single vis-network edge record that `transformDataForVis`
produces from `fgW`. -/
def visEdgeW : Frontend.VisEdgeOut :=
  { eid := titleA ++ "-" ++ titleB, src := titleA, dst := titleB, width := 2 }

end Examples


namespace Engine

/-- A property preserved by every fold step is preserved by the fold. -/
theorem foldl_pres {α : Type} {β : Type} {f : α → β → α} {P : α → Prop}
    (h : ∀ a b, P a → P (f a b)) :
    ∀ (l : List β) (a : α), P a → P (l.foldl f a) := by
  intro l
  induction l with
  | nil => intro a ha; exact ha
  | cons b bs ih => intro a ha; exact ih (f a b) (h a b ha)

/-- Case analysis on one outlink step: the node list either stays or grows
by exactly the freshly inserted node. -/
theorem processOutlink_nodes_shape (pre : List Edge) (N d : Nat) (f : String)
    (st : LevelSt) (t : String) :
    (processOutlink pre N d f st t).g.nodes = st.g.nodes ∨
    (processOutlink pre N d f st t).g.nodes
      = st.g.nodes ++ [{ id := t, title := t, depth := d }] := by
  unfold processOutlink
  split
  · exact Or.inl rfl
  · split
    · exact Or.inr rfl
    · exact Or.inl rfl

/-- Case analysis on one outlink step: the edge list stays, gets one pair
bumped, or grows by one fresh record of weight 1. -/
theorem processOutlink_edges_shape (pre : List Edge) (N d : Nat) (f : String)
    (st : LevelSt) (t : String) :
    (processOutlink pre N d f st t).g.edges = st.g.edges ∨
    (processOutlink pre N d f st t).g.edges = addEdgeMerge pre st.g.edges f t := by
  unfold processOutlink
  split
  · exact Or.inr rfl
  · split
    · exact Or.inr rfl
    · exact Or.inl rfl

/-- The shape of `addEdgeMerge`: unchanged, bumped, or extended by a fresh
weight-1 record. -/
theorem addEdgeMerge_shape (pre es : List Edge) (f t : String) :
    addEdgeMerge pre es f t = es ∨
    addEdgeMerge pre es f t = bumpWeight es f t ∨
    addEdgeMerge pre es f t = es ++ [{ src := f, dst := t, weight := 1 }] := by
  unfold addEdgeMerge
  split
  · exact Or.inl rfl
  · split
    · exact Or.inr (Or.inl rfl)
    · exact Or.inr (Or.inr rfl)

/-- Bumping a pair's weight does not change which pairs are present. -/
theorem edgeMem_bumpWeight (es : List Edge) (a b f t : String) :
    edgeMem (bumpWeight es a b) f t = edgeMem es f t := by
  induction es with
  | nil => rfl
  | cons e es ih =>
    unfold edgeMem bumpWeight at ih ⊢
    simp only [List.map_cons, List.any_cons]
    rw [ih]
    by_cases h : (e.src == a && e.dst == b) = true
    · simp [h]
    · simp [h]

/-- Edge membership is monotone under `addEdgeMerge`. -/
theorem edgeMem_addEdgeMerge_mono (pre es : List Edge) (a b f t : String)
    (h : edgeMem es f t = true) :
    edgeMem (addEdgeMerge pre es a b) f t = true := by
  rcases addEdgeMerge_shape pre es a b with hs | hs | hs <;> rw [hs]
  · exact h
  · rw [edgeMem_bumpWeight]; exact h
  · unfold edgeMem at h ⊢
    rw [List.any_append, h, Bool.true_or]

/-- The pair just recorded is present afterwards, provided edges existing
prior to the call are still present now. -/
theorem edgeMem_addEdgeMerge_self (pre es : List Edge) (f t : String)
    (hsub : edgeMem pre f t = true → edgeMem es f t = true) :
    edgeMem (addEdgeMerge pre es f t) f t = true := by
  unfold addEdgeMerge
  split
  · next h1 => exact hsub h1
  · split
    · next h2 => rw [edgeMem_bumpWeight]; exact h2
    · unfold edgeMem
      rw [List.any_append]
      simp

/-- Node presence is monotone under one outlink step. -/
theorem hasNode_processOutlink_mono (pre : List Edge) (N d : Nat) (f : String)
    (st : LevelSt) (t x : String) (h : hasNode st.g x = true) :
    hasNode (processOutlink pre N d f st t).g x = true := by
  rcases processOutlink_nodes_shape pre N d f st t with hs | hs <;>
    unfold hasNode at h ⊢ <;> rw [hs]
  · exact h
  · rw [List.any_append, h, Bool.true_or]

/-- Edge membership is monotone under one outlink step. -/
theorem edgeMem_processOutlink_mono (pre : List Edge) (N d : Nat) (fr : String)
    (st : LevelSt) (t f x : String) (h : edgeMem st.g.edges f x = true) :
    edgeMem (processOutlink pre N d fr st t).g.edges f x = true := by
  rcases processOutlink_edges_shape pre N d fr st t with hs | hs <;> rw [hs]
  · exact h
  · exact edgeMem_addEdgeMerge_mono pre st.g.edges fr t f x h

/-- The node count never decreases under one outlink step. -/
theorem length_processOutlink_mono (pre : List Edge) (N d : Nat) (f : String)
    (st : LevelSt) (t : String) :
    st.g.nodes.length ≤ (processOutlink pre N d f st t).g.nodes.length := by
  rcases processOutlink_nodes_shape pre N d f st t with hs | hs
  · rw [hs]
  · rw [hs, List.length_append]; exact Nat.le_add_right _ _

/-- The node cap is respected by one outlink step. -/
theorem length_processOutlink_le (pre : List Edge) (N d : Nat) (f : String)
    (st : LevelSt) (t : String) (h : st.g.nodes.length ≤ N) :
    (processOutlink pre N d f st t).g.nodes.length ≤ N := by
  unfold processOutlink
  split
  · exact h
  · split
    · next hlt =>
      simpa using Nat.succ_le_of_lt hlt
    · exact h

/-- Once the cap is reached, one outlink step inserts no node. -/
theorem processOutlink_nodes_at_cap (pre : List Edge) (N d : Nat) (f : String)
    (st : LevelSt) (t : String) (h : N ≤ st.g.nodes.length) :
    (processOutlink pre N d f st t).g.nodes = st.g.nodes := by
  unfold processOutlink
  split
  · rfl
  · split
    · next hlt => exact absurd hlt (Nat.not_lt.mpr h)
    · rfl

end Engine

namespace Engine

/-- A graph property preserved by every outlink step at level depth `d` is
preserved by processing all outlinks of one frontier node. -/
theorem processNode_pres {pre : List Edge} {N d : Nat} {P : Graph → Prop}
    (h : ∀ f (st : LevelSt) t, P st.g → P (processOutlink pre N d f st t).g)
    (outl : String → List String) :
    ∀ (st : LevelSt) (f : String), P st.g → P (processNode outl pre N d st f).g := by
  intro st f hp
  exact foldl_pres (P := fun a => P a.g) (fun a b ha => h f a b ha) (outl f) st hp

/-- A graph property preserved by every outlink step at level depth `d` is
preserved by processing a whole level. -/
theorem processLevel_pres {pre : List Edge} {N d : Nat} {P : Graph → Prop}
    (h : ∀ f (st : LevelSt) t, P st.g → P (processOutlink pre N d f st t).g)
    (outl : String → List String) :
    ∀ (g : Graph) (fr : List String), P g → P (processLevel outl pre N d g fr).g := by
  intro g fr hp
  exact foldl_pres (P := fun a => P a.g)
    (fun a b ha => processNode_pres h outl a b ha) fr { g := g, fresh := [] } hp

/-- A graph property preserved by every outlink step at every level depth
is preserved by the whole BFS driver. -/
theorem bfsLoop_pres {pre : List Edge} {N : Nat} {P : Graph → Prop}
    (h : ∀ d f (st : LevelSt) t, P st.g → P (processOutlink pre N d f st t).g)
    (outl : String → List String) :
    ∀ (lvls : Nat) (g : Graph) (fr : List String) (d : Nat),
      P g → P (bfsLoop outl pre N lvls g fr d) := by
  intro lvls
  induction lvls with
  | zero => intro g fr d hp; exact hp
  | succ l ih =>
    intro g fr d hp
    simp only [bfsLoop]
    split
    · exact hp
    · exact ih _ _ _ (processLevel_pres (h d) outl g fr hp)

end Engine

namespace Engine

/-- A property preserved by fold steps on list members is preserved by the
fold. -/
theorem foldl_pres_mem {α : Type} {β : Type} {f : α → β → α} {P : α → Prop} :
    ∀ {l : List β}, (∀ a b, b ∈ l → P a → P (f a b)) →
      ∀ a, P a → P (l.foldl f a) := by
  intro l
  induction l with
  | nil => intro _ a ha; exact ha
  | cons b bs ih =>
    intro h a ha
    exact ih (fun a' b' hb' => h a' b' (List.mem_cons_of_mem b hb'))
      (f a b) (h a b (List.mem_cons_self b bs) ha)

/-- Node presence depends only on the node list. -/
theorem hasNode_nodes_eq {g g' : Graph} (x : String) (h : g'.nodes = g.nodes) :
    hasNode g' x = hasNode g x := by
  unfold hasNode
  rw [h]

/-- Presence of the just-appended node. -/
theorem hasNode_append_self (g : Graph) (ns : List Node) (t : String) (d : Nat)
    (h : g.nodes = ns ++ [{ id := t, title := t, depth := d }]) :
    hasNode g t = true := by
  unfold hasNode
  rw [h, List.any_append]
  simp

/-- The node cap is respected by the whole BFS driver. -/
theorem bfsLoop_length_le (outl : String → List String) (pre : List Edge)
    (N lvls : Nat) (g : Graph) (fr : List String) (d : Nat)
    (h : g.nodes.length ≤ N) :
    (bfsLoop outl pre N lvls g fr d).nodes.length ≤ N :=
  bfsLoop_pres (P := fun g' => g'.nodes.length ≤ N)
    (fun d' f st t hp => length_processOutlink_le pre N d' f st t hp)
    outl lvls g fr d h

/-- The node list only ever grows by appending, across the whole BFS. -/
theorem bfsLoop_nodes_prefix (outl : String → List String) (pre : List Edge)
    (N lvls : Nat) (g : Graph) (fr : List String) (d : Nat) :
    ∃ ext, (bfsLoop outl pre N lvls g fr d).nodes = g.nodes ++ ext := by
  refine bfsLoop_pres (P := fun g' => ∃ ext, g'.nodes = g.nodes ++ ext)
    (fun d' f st t hp => ?_) outl lvls g fr d ⟨[], by simp⟩
  obtain ⟨ext, hext⟩ := hp
  rcases processOutlink_nodes_shape pre N d' f st t with hs | hs
  · exact ⟨ext, by rw [hs, hext]⟩
  · exact ⟨ext ++ [{ id := t, title := t, depth := d' }],
      by rw [hs, hext, List.append_assoc]⟩

/-- Node presence is monotone across the whole BFS. -/
theorem bfsLoop_hasNode_mono (outl : String → List String) (pre : List Edge)
    (N lvls : Nat) (g : Graph) (fr : List String) (d : Nat) (x : String)
    (h : hasNode g x = true) :
    hasNode (bfsLoop outl pre N lvls g fr d) x = true :=
  bfsLoop_pres (P := fun g' => hasNode g' x = true)
    (fun d' f st t hp => hasNode_processOutlink_mono pre N d' f st t x hp)
    outl lvls g fr d h

/-- Edge membership is monotone across the whole BFS. -/
theorem bfsLoop_edgeMem_mono (outl : String → List String) (pre : List Edge)
    (N lvls : Nat) (g : Graph) (fr : List String) (d : Nat) (f x : String)
    (h : edgeMem g.edges f x = true) :
    edgeMem (bfsLoop outl pre N lvls g fr d).edges f x = true :=
  bfsLoop_pres (P := fun g' => edgeMem g'.edges f x = true)
    (fun d' fn st t hp => edgeMem_processOutlink_mono pre N d' fn st t f x hp)
    outl lvls g fr d h

/-- Saturation of the node cap is stable across the whole BFS. -/
theorem bfsLoop_cap_stable (outl : String → List String) (pre : List Edge)
    (N lvls : Nat) (g : Graph) (fr : List String) (d : Nat)
    (h : N ≤ g.nodes.length) :
    N ≤ (bfsLoop outl pre N lvls g fr d).nodes.length :=
  bfsLoop_pres (P := fun g' => N ≤ g'.nodes.length)
    (fun d' f st t hp => Nat.le_trans hp (length_processOutlink_mono pre N d' f st t))
    outl lvls g fr d h

/-- Every edge existing prior to the call stays present across the BFS. -/
theorem bfsLoop_pre_sub (outl : String → List String) (pre : List Edge)
    (N lvls : Nat) (g : Graph) (fr : List String) (d : Nat)
    (h : ∀ a b, edgeMem pre a b = true → edgeMem g.edges a b = true) :
    ∀ a b, edgeMem pre a b = true →
      edgeMem (bfsLoop outl pre N lvls g fr d).edges a b = true :=
  bfsLoop_pres (P := fun g' => ∀ a b, edgeMem pre a b = true →
      edgeMem g'.edges a b = true)
    (fun d' f st t hp a b hab =>
      edgeMem_processOutlink_mono pre N d' f st t a b (hp a b hab))
    outl lvls g fr d h

/-- The depth a node id is recorded at never changes across the BFS. -/
theorem bfsLoop_depthOf_eq (outl : String → List String) (pre : List Edge)
    (N lvls : Nat) (g : Graph) (fr : List String) (d : Nat) (i : String)
    (k : Nat) (h : depthOf g i = some k) :
    depthOf (bfsLoop outl pre N lvls g fr d) i = some k := by
  obtain ⟨ext, hext⟩ := bfsLoop_nodes_prefix outl pre N lvls g fr d
  unfold depthOf at h ⊢
  rw [hext, List.find?_append]
  obtain ⟨v, hv⟩ : ∃ v, g.nodes.find? (fun w => w.id == i) = some v := by
    cases hfind : g.nodes.find? (fun w => w.id == i) with
    | none => rw [hfind] at h; simp at h
    | some v => exact ⟨v, rfl⟩
  rw [hv]
  rw [hv] at h
  exact h

end Engine

namespace Engine

/-- A bound on all elements bounds the folded maximum. -/
theorem foldr_max_le (l : List Nat) (D : Nat) (h : ∀ x ∈ l, x ≤ D) :
    l.foldr max 0 ≤ D := by
  induction l with
  | nil => exact Nat.zero_le D
  | cons x xs ih =>
    simp only [List.foldr_cons]
    exact max_le (h x (List.mem_cons_self x xs))
      (ih (fun y hy => h y (List.mem_cons_of_mem x hy)))

/-- Processing one level at depth `d ≤ D` keeps all node depths at most
`D`. -/
theorem processLevel_depth_le (outl : String → List String) (pre : List Edge)
    (N d D : Nat) (hd : d ≤ D) (g : Graph) (fr : List String)
    (h : ∀ v ∈ g.nodes, v.depth ≤ D) :
    ∀ v ∈ (processLevel outl pre N d g fr).g.nodes, v.depth ≤ D := by
  refine processLevel_pres (P := fun g' => ∀ v ∈ g'.nodes, v.depth ≤ D)
    (fun f st t hp => ?_) outl g fr h
  rcases processOutlink_nodes_shape pre N d f st t with hs | hs <;> rw [hs]
  · exact hp
  · intro v hv
    rcases List.mem_append.mp hv with hv | hv
    · exact hp v hv
    · rcases List.mem_singleton.mp hv with rfl
      exact hd

/-- The BFS driver started at level depth `d` with `d + lvls ≤ D + 1`
keeps all node depths at most `D`. -/
theorem bfsLoop_depth_le (outl : String → List String) (pre : List Edge)
    (N : Nat) : ∀ (lvls : Nat) (g : Graph) (fr : List String) (d D : Nat),
    (∀ v ∈ g.nodes, v.depth ≤ D) → d + lvls ≤ D + 1 →
    ∀ v ∈ (bfsLoop outl pre N lvls g fr d).nodes, v.depth ≤ D := by
  intro lvls
  induction lvls with
  | zero => intro g fr d D h _; exact h
  | succ l ih =>
    intro g fr d D h hdl
    simp only [bfsLoop]
    split
    · exact h
    · have hdD : d ≤ D := by omega
      exact ih _ _ (d + 1) D
        (processLevel_depth_le outl pre N d D hdD g fr h) (by omega)

/-- Each edge produced by `addEdgeMerge` either matches a pair already in
the list or is the pair just recorded. -/
theorem mem_addEdgeMerge (pre es : List Edge) (f t : String) :
    ∀ e ∈ addEdgeMerge pre es f t,
      (∃ e' ∈ es, e.src = e'.src ∧ e.dst = e'.dst) ∨ (e.src = f ∧ e.dst = t) := by
  intro e he
  rcases addEdgeMerge_shape pre es f t with hs | hs | hs <;> rw [hs] at he
  · exact Or.inl ⟨e, he, rfl, rfl⟩
  · unfold bumpWeight at he
    rcases List.mem_map.mp he with ⟨a, ha, hae⟩
    by_cases hc : (a.src == f && a.dst == t) = true
    · rw [if_pos hc] at hae
      exact Or.inl ⟨a, ha, by rw [← hae], by rw [← hae]⟩
    · rw [if_neg hc] at hae
      exact Or.inl ⟨a, ha, by rw [← hae], by rw [← hae]⟩
  · rcases List.mem_append.mp he with he | he
    · exact Or.inl ⟨e, he, rfl, rfl⟩
    · rcases List.mem_singleton.mp he with rfl
      exact Or.inr ⟨rfl, rfl⟩

end Engine

namespace Engine

/-- Node presence survives appending more nodes. -/
theorem hasNode_of_append (g g' : Graph) (l : List Node)
    (h : g'.nodes = g.nodes ++ l) (x : String) (hx : hasNode g x = true) :
    hasNode g' x = true := by
  unfold hasNode at hx ⊢
  rw [h, List.any_append, hx, Bool.true_or]

/-- One outlink step preserves the no-dangling-edge invariant together
with presence of the freshly inserted frontier, provided the frontier node
being processed is present. -/
theorem processOutlink_nd (pre : List Edge) (N d : Nat) (f : String)
    (st : LevelSt) (t : String)
    (hf : hasNode st.g f = true)
    (hnd : ∀ e ∈ st.g.edges, hasNode st.g e.src = true ∧ hasNode st.g e.dst = true)
    (hfresh : ∀ x ∈ st.fresh, hasNode st.g x = true) :
    (∀ e ∈ (processOutlink pre N d f st t).g.edges,
        hasNode (processOutlink pre N d f st t).g e.src = true ∧
        hasNode (processOutlink pre N d f st t).g e.dst = true) ∧
    (∀ x ∈ (processOutlink pre N d f st t).fresh,
        hasNode (processOutlink pre N d f st t).g x = true) := by
  by_cases h1 : hasNode st.g t = true
  · have hres : processOutlink pre N d f st t =
        { st with g := { st.g with edges := addEdgeMerge pre st.g.edges f t } } := by
      unfold processOutlink
      rw [if_pos h1]
    rw [hres]
    refine ⟨fun e he => ?_, fun x hx => hfresh x hx⟩
    rcases mem_addEdgeMerge pre st.g.edges f t e he with ⟨e', he', hsrc, hdst⟩ | ⟨hsrc, hdst⟩
    · exact ⟨by rw [show hasNode { st.g with edges := addEdgeMerge pre st.g.edges f t } e.src
                  = hasNode st.g e.src from rfl, hsrc]; exact (hnd e' he').1,
             by rw [show hasNode { st.g with edges := addEdgeMerge pre st.g.edges f t } e.dst
                  = hasNode st.g e.dst from rfl, hdst]; exact (hnd e' he').2⟩
    · exact ⟨by rw [show hasNode { st.g with edges := addEdgeMerge pre st.g.edges f t } e.src
                  = hasNode st.g e.src from rfl, hsrc]; exact hf,
             by rw [show hasNode { st.g with edges := addEdgeMerge pre st.g.edges f t } e.dst
                  = hasNode st.g e.dst from rfl, hdst]; exact h1⟩
  · by_cases h2 : st.g.nodes.length < N
    · have hres : processOutlink pre N d f st t =
          { g := { st.g with
              nodes := st.g.nodes ++ [{ id := t, title := t, depth := d }],
              edges := addEdgeMerge pre st.g.edges f t },
            fresh := st.fresh ++ [t] } := by
        unfold processOutlink
        rw [if_neg (by simp [h1]), if_pos h2]
      rw [hres]
      set g2 : Graph :=
        { st.g with
          nodes := st.g.nodes ++ [{ id := t, title := t, depth := d }],
          edges := addEdgeMerge pre st.g.edges f t } with hg2
      have hg2nodes : g2.nodes = st.g.nodes ++ [{ id := t, title := t, depth := d }] := rfl
      have hmono : ∀ x, hasNode st.g x = true → hasNode g2 x = true :=
        fun x hx => hasNode_of_append st.g g2 _ hg2nodes x hx
      have ht2 : hasNode g2 t = true := hasNode_append_self g2 st.g.nodes t d hg2nodes
      refine ⟨fun e he => ?_, fun x hx => ?_⟩
      · rcases mem_addEdgeMerge pre st.g.edges f t e he with ⟨e', he', hsrc, hdst⟩ | ⟨hsrc, hdst⟩
        · exact ⟨by rw [hsrc]; exact hmono _ (hnd e' he').1,
                 by rw [hdst]; exact hmono _ (hnd e' he').2⟩
        · exact ⟨by rw [hsrc]; exact hmono _ hf, by rw [hdst]; exact ht2⟩
      · rcases List.mem_append.mp hx with hx | hx
        · exact hmono _ (hfresh x hx)
        · rcases List.mem_singleton.mp hx with rfl
          exact ht2
    · have hres : processOutlink pre N d f st t = st := by
        unfold processOutlink
        rw [if_neg (by simp [h1]), if_neg h2]
      rw [hres]
      exact ⟨hnd, hfresh⟩

end Engine

namespace Engine

/-- Node presence is monotone under processing one frontier node. -/
theorem processNode_hasNode_mono (outl : String → List String)
    (pre : List Edge) (N d : Nat) (st : LevelSt) (f x : String)
    (h : hasNode st.g x = true) :
    hasNode (processNode outl pre N d st f).g x = true :=
  foldl_pres (P := fun a : LevelSt => hasNode a.g x = true)
    (fun a b ha => hasNode_processOutlink_mono pre N d f a b x ha)
    (outl f) st h

/-- Processing one frontier node preserves the no-dangling-edge invariant
and the presence of the accumulated fresh frontier. -/
theorem processNode_nd (outl : String → List String) (pre : List Edge)
    (N d : Nat) (st : LevelSt) (f : String)
    (hf : hasNode st.g f = true)
    (hnd : ∀ e ∈ st.g.edges, hasNode st.g e.src = true ∧ hasNode st.g e.dst = true)
    (hfresh : ∀ x ∈ st.fresh, hasNode st.g x = true) :
    (∀ e ∈ (processNode outl pre N d st f).g.edges,
        hasNode (processNode outl pre N d st f).g e.src = true ∧
        hasNode (processNode outl pre N d st f).g e.dst = true) ∧
    (∀ x ∈ (processNode outl pre N d st f).fresh,
        hasNode (processNode outl pre N d st f).g x = true) := by
  have h := foldl_pres
    (P := fun a : LevelSt =>
      (∀ e ∈ a.g.edges, hasNode a.g e.src = true ∧ hasNode a.g e.dst = true) ∧
      (∀ x ∈ a.fresh, hasNode a.g x = true) ∧ hasNode a.g f = true)
    (fun a b ha =>
      ⟨(processOutlink_nd pre N d f a b ha.2.2 ha.1 ha.2.1).1,
       (processOutlink_nd pre N d f a b ha.2.2 ha.1 ha.2.1).2,
       hasNode_processOutlink_mono pre N d f a b f ha.2.2⟩)
    (outl f) st ⟨hnd, hfresh, hf⟩
  exact ⟨h.1, h.2.1⟩

/-- Processing one level preserves the no-dangling-edge invariant; the
produced fresh frontier consists of nodes present afterwards. -/
theorem processLevel_nd (outl : String → List String) (pre : List Edge)
    (N d : Nat) (g : Graph) (fr : List String)
    (hfr : ∀ f ∈ fr, hasNode g f = true)
    (hnd : ∀ e ∈ g.edges, hasNode g e.src = true ∧ hasNode g e.dst = true) :
    (∀ e ∈ (processLevel outl pre N d g fr).g.edges,
        hasNode (processLevel outl pre N d g fr).g e.src = true ∧
        hasNode (processLevel outl pre N d g fr).g e.dst = true) ∧
    (∀ x ∈ (processLevel outl pre N d g fr).fresh,
        hasNode (processLevel outl pre N d g fr).g x = true) := by
  have h := foldl_pres_mem
    (P := fun a : LevelSt =>
      (∀ e ∈ a.g.edges, hasNode a.g e.src = true ∧ hasNode a.g e.dst = true) ∧
      (∀ x ∈ a.fresh, hasNode a.g x = true) ∧
      (∀ x, hasNode g x = true → hasNode a.g x = true))
    (l := fr)
    (fun a b hb ha => by
      have hbp : hasNode a.g b = true := ha.2.2 b (hfr b hb)
      refine ⟨(processNode_nd outl pre N d a b hbp ha.1 ha.2.1).1,
              (processNode_nd outl pre N d a b hbp ha.1 ha.2.1).2,
              fun x hx => processNode_hasNode_mono outl pre N d a b x (ha.2.2 x hx)⟩)
    { g := g, fresh := [] }
    ⟨hnd, by intro x hx; simp at hx, fun x hx => hx⟩
  exact ⟨h.1, h.2.1⟩

/-- The BFS driver preserves the no-dangling-edge invariant whenever the
starting frontier consists of present nodes. -/
theorem bfsLoop_nd (outl : String → List String) (pre : List Edge)
    (N : Nat) : ∀ (lvls : Nat) (g : Graph) (fr : List String) (d : Nat),
    (∀ f ∈ fr, hasNode g f = true) →
    (∀ e ∈ g.edges, hasNode g e.src = true ∧ hasNode g e.dst = true) →
    ∀ e ∈ (bfsLoop outl pre N lvls g fr d).edges,
      hasNode (bfsLoop outl pre N lvls g fr d) e.src = true ∧
      hasNode (bfsLoop outl pre N lvls g fr d) e.dst = true := by
  intro lvls
  induction lvls with
  | zero => intro g fr d _ hnd; exact hnd
  | succ l ih =>
    intro g fr d hfr hnd
    simp only [bfsLoop]
    split
    · exact hnd
    · have h := processLevel_nd outl pre N d g fr hfr hnd
      exact ih _ _ (d + 1) h.2 h.1

end Engine

namespace Engine

/-- Bumping weights leaves the list of ordered pairs untouched. -/
theorem pairs_bumpWeight (es : List Edge) (a b : String) :
    (bumpWeight es a b).map (fun e => (e.src, e.dst))
      = es.map (fun e => (e.src, e.dst)) := by
  induction es with
  | nil => rfl
  | cons e es ih =>
    unfold bumpWeight at ih ⊢
    simp only [List.map_cons]
    rw [ih]
    by_cases h : (e.src == a && e.dst == b) = true
    · rw [if_pos h]
    · rw [if_neg h]

/-- Absence of a pair, phrased through the pair projection. -/
theorem pair_not_mem_of_edgeMem_false (es : List Edge) (f t : String)
    (h : edgeMem es f t = false) :
    (f, t) ∉ es.map (fun e => (e.src, e.dst)) := by
  intro hmem
  rcases List.mem_map.mp hmem with ⟨e, he, hkey⟩
  have hsrc : e.src = f := congrArg Prod.fst hkey
  have hdst : e.dst = t := congrArg Prod.snd hkey
  have : edgeMem es f t = true := by
    unfold edgeMem
    rw [List.any_eq_true]
    exact ⟨e, he, by simp [hsrc, hdst]⟩
  rw [this] at h
  cases h

/-- Uniqueness of ordered pairs is preserved by edge recording. -/
theorem pairsNodup_addEdgeMerge (pre es : List Edge) (f t : String)
    (h : pairsNodup es) : pairsNodup (addEdgeMerge pre es f t) := by
  unfold addEdgeMerge
  split
  · exact h
  · split
    · next h2 =>
      unfold pairsNodup at h ⊢
      rw [pairs_bumpWeight]
      exact h
    · next h2 =>
      unfold pairsNodup at h ⊢
      rw [List.map_append]
      rw [List.nodup_append]
      refine ⟨h, List.nodup_singleton _, ?_⟩
      intro p hp hps
      rcases List.mem_singleton.mp hps with rfl
      exact pair_not_mem_of_edgeMem_false es f t (Bool.eq_false_iff.mpr h2) hp

/-- Positivity of weights is preserved by edge recording. -/
theorem weightsPos_addEdgeMerge (pre es : List Edge) (f t : String)
    (h : ∀ e ∈ es, 1 ≤ e.weight) :
    ∀ e ∈ addEdgeMerge pre es f t, 1 ≤ e.weight := by
  intro e he
  rcases addEdgeMerge_shape pre es f t with hs | hs | hs <;> rw [hs] at he
  · exact h e he
  · unfold bumpWeight at he
    rcases List.mem_map.mp he with ⟨a, ha, hae⟩
    by_cases hc : (a.src == f && a.dst == t) = true
    · rw [if_pos hc] at hae
      rw [← hae]
      exact Nat.le_add_left 1 a.weight
    · rw [if_neg hc] at hae
      rw [← hae]
      exact h a ha
  · rcases List.mem_append.mp he with he | he
    · exact h e he
    · rcases List.mem_singleton.mp he with rfl
      exact Nat.le_refl 1

/-- Pair uniqueness and weight positivity hold of the BFS result whenever
they hold initially. -/
theorem bfsLoop_edges_inv (outl : String → List String) (pre : List Edge)
    (N lvls : Nat) (g : Graph) (fr : List String) (d : Nat)
    (h : pairsNodup g.edges ∧ weightsPos g.edges) :
    pairsNodup (bfsLoop outl pre N lvls g fr d).edges ∧
    weightsPos (bfsLoop outl pre N lvls g fr d).edges := by
  refine bfsLoop_pres (P := fun g' => pairsNodup g'.edges ∧ weightsPos g'.edges)
    (fun d' f st t hp => ?_) outl lvls g fr d h
  rcases processOutlink_edges_shape pre N d' f st t with hs | hs <;> rw [hs]
  · exact hp
  · exact ⟨pairsNodup_addEdgeMerge pre st.g.edges f t hp.1,
           weightsPos_addEdgeMerge pre st.g.edges f t hp.2⟩

/-- Recording an already-present pair (outside any prior-edge set) keeps
the record count and increments that pair's weight. -/
theorem addEdgeMerge_second_discovery (es : List Edge) (f t : String)
    (h : edgeMem es f t = true) :
    (addEdgeMerge [] es f t).length = es.length ∧
    weightOf (addEdgeMerge [] es f t) f t = (weightOf es f t).map (fun w => w + 1) := by
  have hpre : edgeMem ([] : List Edge) f t = false := rfl
  unfold addEdgeMerge
  rw [hpre]
  simp only [Bool.false_eq_true, if_false, if_pos h]
  constructor
  · unfold bumpWeight
    exact List.length_map es _
  · induction es with
    | nil => rfl
    | cons e es ih =>
      unfold weightOf bumpWeight at ih ⊢
      by_cases hc : (e.src == f && e.dst == t) = true
      · simp only [List.map_cons, if_pos hc]
        rw [List.find?_cons_of_pos _ (by simpa using hc),
            List.find?_cons_of_pos _ (by simpa using hc)]
        rfl
      · simp only [List.map_cons, if_neg hc]
        rw [List.find?_cons_of_neg _ (by simpa using hc),
            List.find?_cons_of_neg _ (by simpa using hc)]
        have h' : edgeMem es f t = true := by
          unfold edgeMem at h ⊢
          simpa [hc] using h
        exact ih h'

end Engine

namespace Engine

/-- Presence of a node id is equivalent to its depth being recorded. -/
theorem hasNode_iff_depthOf_isSome (g : Graph) (i : String) :
    hasNode g i = true ↔ (depthOf g i).isSome = true := by
  unfold hasNode depthOf
  have hmap : (Option.map (fun v => v.depth) (g.nodes.find? (fun v => v.id == i))).isSome
      = (g.nodes.find? (fun v => v.id == i)).isSome := by
    cases g.nodes.find? (fun v => v.id == i) <;> rfl
  rw [List.any_eq_true, hmap, List.find?_isSome]

/-- The BFS driver does nothing on an empty frontier. -/
theorem bfsLoop_nil_frontier (outl : String → List String) (pre : List Edge)
    (N lvls : Nat) (g : Graph) (d : Nat) :
    bfsLoop outl pre N lvls g [] d = g := by
  cases lvls with
  | zero => rfl
  | succ l => simp [bfsLoop]

/-- The saturation invariant is preserved by any later outlink step under
the same node cap. -/
theorem expandedSat_step (outl : String → List String) (n : String) (N : Nat)
    (pre : List Edge) (d : Nat) (f : String) (st : LevelSt) (u : String)
    (h : expandedSat outl n N st.g) :
    expandedSat outl n N (processOutlink pre N d f st u).g := by
  intro t ht
  rcases h t ht with ⟨hpos, hneg⟩
  by_cases hc : hasNode st.g t = true
  · have hmem := edgeMem_processOutlink_mono pre N d f st u n t (hpos hc)
    have hmono := hasNode_processOutlink_mono pre N d f st u t hc
    exact ⟨fun _ => hmem, fun hfalse => by rw [hmono] at hfalse; cases hfalse⟩
  · have hcap : N ≤ st.g.nodes.length := hneg (Bool.eq_false_iff.mpr hc)
    have hnodes := processOutlink_nodes_at_cap pre N d f st u hcap
    have hsame : hasNode (processOutlink pre N d f st u).g t = hasNode st.g t :=
      hasNode_nodes_eq t hnodes
    refine ⟨fun htrue => ?_, fun _ => ?_⟩
    · rw [hsame] at htrue
      exact absurd htrue hc
    · rw [show (processOutlink pre N d f st u).g.nodes.length
          = st.g.nodes.length from by rw [hnodes]]
      exact hcap

/-- Processing one outlink of `n` satisfies the saturation clause for that
outlink, provided all prior edges are still present. -/
theorem processOutlink_establishes (pre : List Edge) (N d : Nat)
    (n : String) (st : LevelSt) (u : String)
    (hsub : ∀ a b, edgeMem pre a b = true → edgeMem st.g.edges a b = true) :
    (hasNode (processOutlink pre N d n st u).g u = true →
      edgeMem (processOutlink pre N d n st u).g.edges n u = true) ∧
    (hasNode (processOutlink pre N d n st u).g u = false →
      N ≤ (processOutlink pre N d n st u).g.nodes.length) := by
  by_cases h1 : hasNode st.g u = true
  · have hres : processOutlink pre N d n st u =
        { st with g := { st.g with edges := addEdgeMerge pre st.g.edges n u } } := by
      unfold processOutlink
      rw [if_pos h1]
    rw [hres]
    have hmem : edgeMem (addEdgeMerge pre st.g.edges n u) n u = true :=
      edgeMem_addEdgeMerge_self pre st.g.edges n u (hsub n u)
    have hh : hasNode { st.g with edges := addEdgeMerge pre st.g.edges n u } u
        = hasNode st.g u := rfl
    exact ⟨fun _ => hmem, fun hfalse => by rw [hh, h1] at hfalse; cases hfalse⟩
  · by_cases h2 : st.g.nodes.length < N
    · have hres : processOutlink pre N d n st u =
          { g := { st.g with
              nodes := st.g.nodes ++ [{ id := u, title := u, depth := d }],
              edges := addEdgeMerge pre st.g.edges n u },
            fresh := st.fresh ++ [u] } := by
        unfold processOutlink
        rw [if_neg (by simp [h1]), if_pos h2]
      rw [hres]
      have hmem : edgeMem (addEdgeMerge pre st.g.edges n u) n u = true :=
        edgeMem_addEdgeMerge_self pre st.g.edges n u (hsub n u)
      have hu : hasNode
          ({ st.g with
              nodes := st.g.nodes ++ [{ id := u, title := u, depth := d }],
              edges := addEdgeMerge pre st.g.edges n u } : Graph) u = true :=
        hasNode_append_self _ st.g.nodes u d rfl
      exact ⟨fun _ => hmem, fun hfalse => by rw [hu] at hfalse; cases hfalse⟩
    · have hres : processOutlink pre N d n st u = st := by
        unfold processOutlink
        rw [if_neg (by simp [h1]), if_neg h2]
      rw [hres]
      refine ⟨fun htrue => absurd htrue h1, fun _ => Nat.le_of_not_lt h2⟩

/-- Prior-edge preservation, stepwise. -/
theorem processOutlink_presub (pre : List Edge) (N d : Nat) (f : String)
    (st : LevelSt) (t : String)
    (hsub : ∀ a b, edgeMem pre a b = true → edgeMem st.g.edges a b = true) :
    ∀ a b, edgeMem pre a b = true →
      edgeMem (processOutlink pre N d f st t).g.edges a b = true :=
  fun a b hab => edgeMem_processOutlink_mono pre N d f st t a b (hsub a b hab)

/-- Folding all outlinks of `n` establishes the saturation clause for each
of them. -/
theorem foldl_establishes (pre : List Edge) (N d : Nat) (n : String) :
    ∀ (L : List String) (st : LevelSt),
      (∀ a b, edgeMem pre a b = true → edgeMem st.g.edges a b = true) →
      ∀ t ∈ L,
        (hasNode (L.foldl (processOutlink pre N d n) st).g t = true →
          edgeMem (L.foldl (processOutlink pre N d n) st).g.edges n t = true) ∧
        (hasNode (L.foldl (processOutlink pre N d n) st).g t = false →
          N ≤ (L.foldl (processOutlink pre N d n) st).g.nodes.length) := by
  intro L
  induction L with
  | nil => intro st _ t ht; cases ht
  | cons u L ih =>
    intro st hsub t ht
    rw [List.foldl_cons]
    rcases List.mem_cons.mp ht with rfl | htl
    · have hest := processOutlink_establishes pre N d n st t hsub
      refine foldl_pres
        (P := fun a : LevelSt =>
          (hasNode a.g t = true → edgeMem a.g.edges n t = true) ∧
          (hasNode a.g t = false → N ≤ a.g.nodes.length))
        (fun a b ha => ?_) L _ hest
      by_cases hc : hasNode a.g t = true
      · have hmem := edgeMem_processOutlink_mono pre N d n a b n t (ha.1 hc)
        have hmono := hasNode_processOutlink_mono pre N d n a b t hc
        exact ⟨fun _ => hmem, fun hfalse => by rw [hmono] at hfalse; cases hfalse⟩
      · have hcap : N ≤ a.g.nodes.length := ha.2 (Bool.eq_false_iff.mpr hc)
        have hnodes := processOutlink_nodes_at_cap pre N d n a b hcap
        refine ⟨fun htrue => ?_, fun _ => ?_⟩
        · rw [hasNode_nodes_eq t hnodes] at htrue
          exact absurd htrue hc
        · rw [show (processOutlink pre N d n a b).g.nodes.length
              = a.g.nodes.length from by rw [hnodes]]
          exact hcap
    · exact ih (processOutlink pre N d n st u)
        (processOutlink_presub pre N d n st u hsub) t htl

end Engine

namespace Engine

/-- An expansion of `n` that runs at least one level leaves the graph
saturated for `n`'s outlinks. -/
theorem bfsLoop_expandedSat (outl : String → List String) (n : String)
    (N : Nat) (pre : List Edge) (l : Nat) (g : Graph) (d : Nat)
    (hsub : ∀ a b, edgeMem pre a b = true → edgeMem g.edges a b = true) :
    expandedSat outl n N (bfsLoop outl pre N (l + 1) g [n] d) := by
  simp only [bfsLoop]
  rw [if_neg (by simp : ¬(([n] : List String).isEmpty = true))]
  have hsat : expandedSat outl n N (processLevel outl pre N d g [n]).g := by
    intro t ht
    exact foldl_establishes pre N d n (outl n) { g := g, fresh := [] } hsub t ht
  exact bfsLoop_pres (P := expandedSat outl n N)
    (fun d' f st t hp => expandedSat_step outl n N pre d' f st t hp)
    outl l _ _ _ hsat

/-- On a saturated graph, re-processing the outlinks of `n` with the
current edges as the prior set is a no-op. -/
theorem foldl_noop (outl : String → List String) (n : String) (N : Nat)
    (g1 : Graph) (d : Nat) (hsat : expandedSat outl n N g1) :
    ∀ (L : List String), (∀ t ∈ L, t ∈ outl n) →
      ∀ (fr : List String),
      L.foldl (processOutlink g1.edges N d n) { g := g1, fresh := fr }
        = { g := g1, fresh := fr } := by
  intro L
  induction L with
  | nil => intro _ fr; rfl
  | cons u L ih =>
    intro hsubL fr
    rw [List.foldl_cons]
    have hstep : processOutlink g1.edges N d n { g := g1, fresh := fr } u
        = { g := g1, fresh := fr } := by
      rcases hsat u (hsubL u (List.mem_cons_self u L)) with ⟨hpos, hneg⟩
      by_cases hc : hasNode g1 u = true
      · have hmem : edgeMem g1.edges n u = true := hpos hc
        have hAdd : addEdgeMerge g1.edges g1.edges n u = g1.edges := by
          unfold addEdgeMerge
          rw [if_pos hmem]
        unfold processOutlink
        rw [if_pos hc]
        rw [show ({ g := g1, fresh := fr } : LevelSt).g.edges = g1.edges from rfl]
        rw [hAdd]
      · have hcap := hneg (Bool.eq_false_iff.mpr hc)
        unfold processOutlink
        rw [if_neg hc, if_neg (Nat.not_lt.mpr hcap)]
    rw [hstep]
    exact ih (fun t ht => hsubL t (List.mem_cons_of_mem u ht)) fr

/-- On a saturated graph, re-expanding `n` with the graph's own edges as
the prior set returns the graph unchanged. -/
theorem bfsLoop_noop (outl : String → List String) (n : String) (N : Nat)
    (g1 : Graph) (hsat : expandedSat outl n N g1) :
    ∀ (lvls d : Nat), bfsLoop outl g1.edges N lvls g1 [n] d = g1 := by
  intro lvls d
  cases lvls with
  | zero => rfl
  | succ l =>
    simp only [bfsLoop]
    rw [if_neg (by simp : ¬(([n] : List String).isEmpty = true))]
    have hlevel : processLevel outl g1.edges N d g1 [n] = { g := g1, fresh := [] } :=
      foldl_noop outl n N g1 d hsat (outl n) (fun t ht => ht) []
    rw [hlevel]
    exact bfsLoop_nil_frontier outl g1.edges N l g1 (d + 1)

/-- A present node id has a recorded depth. -/
theorem depthOf_of_hasNode (g : Graph) (n : String) (h : hasNode g n = true) :
    ∃ d0, depthOf g n = some d0 := by
  have hs := (hasNode_iff_depthOf_isSome g n).mp h
  cases hdd : depthOf g n with
  | none => rw [hdd] at hs; cases hs
  | some k => exact ⟨k, rfl⟩

/-- Unfolding of the merge work at a recorded target depth. -/
theorem expandCore_eq_of_depth (outl : String → List String) (g : Graph)
    (n : String) (ed N d0 : Nat) (hd : depthOf g n = some d0) :
    expandCore outl g n ed N = bfsLoop outl g.edges N ed g [n] (d0 + 1) := by
  unfold expandCore
  rw [hd]

/-- Expansion applied a second time to its own result is the identity. -/
theorem expand_second_noop (outl : String → List String) (g : Graph)
    (n : String) (ed N : Nat) (h : hasNode g n = true) :
    expand outl (expandCore outl g n ed N) n ed N
      = .ok (expandCore outl g n ed N) := by
  obtain ⟨d0, hd0⟩ := depthOf_of_hasNode g n h
  have hg1eq : expandCore outl g n ed N
      = bfsLoop outl g.edges N ed g [n] (d0 + 1) :=
    expandCore_eq_of_depth outl g n ed N d0 hd0
  have hnode1 : hasNode (expandCore outl g n ed N) n = true := by
    rw [hg1eq]
    exact bfsLoop_hasNode_mono outl g.edges N ed g [n] (d0 + 1) n h
  have hd1 : depthOf (expandCore outl g n ed N) n = some d0 := by
    rw [hg1eq]
    exact bfsLoop_depthOf_eq outl g.edges N ed g [n] (d0 + 1) n d0 hd0
  unfold expand
  rw [if_pos hnode1]
  congr 1
  rw [expandCore_eq_of_depth outl (expandCore outl g n ed N) n ed N d0 hd1]
  cases ed with
  | zero => rfl
  | succ l =>
    have hsat : expandedSat outl n N (expandCore outl g n (l + 1) N) := by
      rw [hg1eq]
      exact bfsLoop_expandedSat outl n N g.edges l g (d0 + 1) (fun a b hab => hab)
    exact bfsLoop_noop outl n N (expandCore outl g n (l + 1) N) hsat (l + 1) (d0 + 1)

end Engine

namespace Engine

/-- The budgeted BFS driver always succeeds, returning exactly the
unbudgeted build truncated at the budget. -/
theorem bfsLoopBudget_eq_min (outl : String → List String) (pre : List Edge)
    (N : Nat) : ∀ (lvls b : Nat) (g : Graph) (fr : List String) (d : Nat),
    bfsLoopBudget outl pre N lvls b g fr d
      = .ok (bfsLoop outl pre N (min lvls b) g fr d) := by
  intro lvls
  induction lvls with
  | zero =>
    intro b g fr d
    cases b with
    | zero => rfl
    | succ b' => rw [Nat.zero_min]; rfl
  | succ l ih =>
    intro b g fr d
    cases b with
    | zero => rw [Nat.min_zero]; rfl
    | succ b' =>
      rw [Nat.succ_min_succ]
      simp only [bfsLoopBudget, bfsLoop]
      by_cases hc : fr.isEmpty = true
      · rw [if_pos hc, if_pos hc]
      · rw [if_neg hc, if_neg hc]
        exact ih b' _ _ _

/-- The budgeted explore returns the truncated build as a success. -/
theorem exploreWithBudget_eq (outl : String → List String) (b : Nat)
    (rootTitle : String) (D N : Nat) :
    exploreWithBudget outl b rootTitle D N
      = .ok (explore outl rootTitle (min D b) N) := by
  unfold exploreWithBudget explore
  exact bfsLoopBudget_eq_min outl [] N D b _ [rootTitle] 1

/-- The budgeted expand returns the truncated merge as a success whenever
the target node is present. -/
theorem expandWithBudget_eq (outl : String → List String) (b : Nat)
    (g : Graph) (n : String) (ed N : Nat) (h : hasNode g n = true) :
    expandWithBudget outl b g n ed N
      = .ok (expandCore outl g n (min ed b) N) ∧
    expand outl g n (min ed b) N
      = .ok (expandCore outl g n (min ed b) N) := by
  obtain ⟨d0, hd0⟩ := depthOf_of_hasNode g n h
  constructor
  · unfold expandWithBudget
    rw [if_pos h, hd0]
    show bfsLoopBudget outl g.edges N ed b g [n] (d0 + 1) = _
    rw [bfsLoopBudget_eq_min outl g.edges N ed b g [n] (d0 + 1)]
    rw [expandCore_eq_of_depth outl g n (min ed b) N d0 hd0]
  · unfold expand
    rw [if_pos h]

end Engine

namespace Coordinator

/-- A request for a cache-missed, in-flight entity only appends the caller
to that entity's waiter list. -/
theorem stepEvent_request_inflight (s : CoordState) (c : Nat) (id : String)
    (w : List Nat) (hc : lookupKey s.cache id = none)
    (hi : lookupKey s.inflight id = some w) :
    stepEvent s (.request c id) =
      ({ s with inflight := s.inflight.map (fun p =>
          if p.1 == id then (p.1, p.2 ++ [c]) else p) }, []) := by
  simp only [stepEvent]
  rw [hc, hi]

/-- A request for a cache-missed entity with no fetch in flight issues
exactly one new outbound call. -/
theorem stepEvent_request_new (s : CoordState) (c : Nat) (id : String)
    (hc : lookupKey s.cache id = none)
    (hi : lookupKey s.inflight id = none) :
    stepEvent s (.request c id) =
      ({ s with inflight := s.inflight ++ [(id, [c])],
                networkCalls := s.networkCalls + 1 }, []) := by
  simp only [stepEvent]
  rw [hc, hi]

/-- A completion delivers the fetched content to every waiting caller. -/
theorem stepEvent_complete_inflight (s : CoordState) (id content : String)
    (w : List Nat) (hi : lookupKey s.inflight id = some w) :
    stepEvent s (.complete id content) =
      ({ s with cache := s.cache ++ [(id, content)],
                inflight := s.inflight.filter (fun p => !(p.1 == id)) },
       w.map (fun c => (c, content))) := by
  simp only [stepEvent]
  rw [hi]

/-- Appending a caller to the waiter lists keyed by `id` updates exactly
the looked-up value. -/
theorem lookupKey_map_update (l : List (String × List Nat)) (id : String)
    (c : Nat) :
    lookupKey (l.map (fun p => if p.1 == id then (p.1, p.2 ++ [c]) else p)) id
      = (lookupKey l id).map (fun w => w ++ [c]) := by
  induction l with
  | nil => rfl
  | cons p l ih =>
    unfold lookupKey at ih ⊢
    by_cases hp : (p.1 == id) = true
    · rw [List.map_cons, if_pos hp,
        List.find?_cons_of_pos _ (by simpa using hp),
        List.find?_cons_of_pos _ (by simpa using hp)]
      rfl
    · rw [List.map_cons, if_neg hp,
        List.find?_cons_of_neg _ (by simpa using hp),
        List.find?_cons_of_neg _ (by simpa using hp)]
      exact ih

/-- Appending a fresh binding makes it the looked-up value when the key
was absent. -/
theorem lookupKey_append_self {α : Type} (l : List (String × α)) (id : String)
    (w : α) (h : lookupKey l id = none) :
    lookupKey (l ++ [(id, w)]) id = some w := by
  unfold lookupKey at h ⊢
  rw [List.find?_append]
  cases hf : l.find? (fun p => p.1 == id) with
  | none => simp [List.find?]
  | some p => rw [hf] at h; simp at h

end Coordinator

namespace Coordinator

/-- While a fetch for `id` is in flight with waiters `w`, further requests
issue no network call and the completion delivers to `w` and all of
them. -/
theorem runEvents_coalesce_aux (id content : String) :
    ∀ (cs : List Nat) (s : CoordState) (w : List Nat),
      lookupKey s.cache id = none → lookupKey s.inflight id = some w →
      (runEvents s (cs.map (fun c => FEvent.request c id)
          ++ [FEvent.complete id content])).1.networkCalls = s.networkCalls ∧
      (runEvents s (cs.map (fun c => FEvent.request c id)
          ++ [FEvent.complete id content])).2
        = (w ++ cs).map (fun c => (c, content)) := by
  intro cs
  induction cs with
  | nil =>
    intro s w hc hi
    simp only [List.map_nil, List.nil_append, runEvents]
    rw [stepEvent_complete_inflight s id content w hi]
    exact ⟨rfl, by simp⟩
  | cons c cs ih =>
    intro s w hc hi
    simp only [List.map_cons, List.cons_append, runEvents]
    rw [stepEvent_request_inflight s c id w hc hi]
    have hi1 : lookupKey
        ({ s with inflight := s.inflight.map (fun p =>
            if p.1 == id then (p.1, p.2 ++ [c]) else p) } : CoordState).inflight id
        = some (w ++ [c]) := by
      show lookupKey (s.inflight.map (fun p =>
          if p.1 == id then (p.1, p.2 ++ [c]) else p)) id = some (w ++ [c])
      rw [lookupKey_map_update, hi]
      rfl
    have hrec := ih ({ s with inflight := s.inflight.map (fun p =>
        if p.1 == id then (p.1, p.2 ++ [c]) else p) }) (w ++ [c]) hc hi1
    refine ⟨hrec.1, ?_⟩
    have hl : w ++ [c] ++ cs = w ++ c :: cs := by simp
    exact hl ▸ hrec.2

/-- The coalescing run: `k ≥ 1` concurrent requests for an uncached,
not-in-flight entity issue exactly one network call and each caller
receives the single fetch's content at completion. -/
theorem coalesce_run (s : CoordState) (id content : String)
    (callers : List Nat) (hne : callers ≠ [])
    (hc : lookupKey s.cache id = none)
    (hi : lookupKey s.inflight id = none) :
    (runEvents s (coalesceTrace callers id content)).1.networkCalls
      = s.networkCalls + 1 ∧
    (runEvents s (coalesceTrace callers id content)).2
      = callers.map (fun c => (c, content)) := by
  cases callers with
  | nil => cases hne rfl
  | cons c cs =>
    unfold coalesceTrace
    simp only [List.map_cons, List.cons_append, runEvents]
    rw [stepEvent_request_new s c id hc hi]
    have hi1 : lookupKey
        ({ s with inflight := s.inflight ++ [(id, [c])],
                  networkCalls := s.networkCalls + 1 } : CoordState).inflight id
        = some [c] := lookupKey_append_self s.inflight id [c] hi
    have hrec := runEvents_coalesce_aux id content cs
      ({ s with inflight := s.inflight ++ [(id, [c])],
                networkCalls := s.networkCalls + 1 }) [c] hc hi1
    exact ⟨hrec.1, hrec.2⟩

end Coordinator

namespace Frontend

/-- Every edge surviving the `transformDataForVis` filters has both of its
endpoints among the transformed nodes. -/
theorem transform_endpoints (g : FGraph) :
    ∀ e ∈ (transformDataForVis g).2,
      (∃ v ∈ (transformDataForVis g).1, v.id = e.src) ∧
      (∃ v ∈ (transformDataForVis g).1, v.id = e.dst) := by
  intro e he
  have he' : e ∈ (validEdges g.nodes g.edges).map (fun e =>
      ({ eid := jsOr e.idAttr (resolvedFrom e ++ "-" ++ resolvedTo e),
         src := resolvedFrom e,
         dst := resolvedTo e,
         width := max 1 ((if e.weight == 0 then 1 else e.weight) * 2) } : VisEdgeOut)) := he
  rcases List.mem_map.mp he' with ⟨e0, he0, rfl⟩
  have hval := (List.mem_filter.mp he0).2
  simp only [Bool.and_eq_true] at hval
  obtain ⟨⟨⟨h1, h2⟩, h3⟩, h4⟩ := hval
  constructor
  · rcases List.any_eq_true.mp h3 with ⟨v, hv, hveq⟩
    refine ⟨{ id := v.id, label := v.label }, ?_, ?_⟩
    · exact List.mem_map.mpr ⟨v, hv, rfl⟩
    · simpa using hveq
  · rcases List.any_eq_true.mp h4 with ⟨v, hv, hveq⟩
    refine ⟨{ id := v.id, label := v.label }, ?_, ?_⟩
    · exact List.mem_map.mpr ⟨v, hv, rfl⟩
    · simpa using hveq

end Frontend

open Engine Frontend Coordinator Examples

/-- C1: for every valid rootTitle, maxDepth and maxNodes (at least 1), the
graph returned by `Explore` has node count at most maxNodes and observed
depth at most maxDepth and contains no dangling edge; moreover, once the
node count has reached maxNodes an outlink step inserts no further node,
while an outlink to an already-present node still records its edge. -/
theorem c1_explore_bounded (outl : String → List String) (rootTitle : String)
    (D N : Nat) (hN : 1 ≤ N) :
    nodeCount (explore outl rootTitle D N) ≤ N ∧
    maxDepthObserved (explore outl rootTitle D N) ≤ D ∧
    noDangling (explore outl rootTitle D N) ∧
    (∀ (pre : List Edge) (d : Nat) (f : String) (st : LevelSt) (t : String),
      N ≤ st.g.nodes.length →
      (processOutlink pre N d f st t).g.nodes = st.g.nodes) ∧
    (∀ (pre : List Edge) (d : Nat) (f : String) (st : LevelSt) (t : String),
      hasNode st.g t = true →
      (∀ a b, edgeMem pre a b = true → edgeMem st.g.edges a b = true) →
      edgeMem (processOutlink pre N d f st t).g.edges f t = true) := by
  refine ⟨?_, ?_, ?_, ?_, ?_⟩
  · exact bfsLoop_length_le outl [] N D _ [rootTitle] 1 (by simpa using hN)
  · have hdep := bfsLoop_depth_le outl [] N D
      { nodes := [{ id := rootTitle, title := rootTitle, depth := 0 }],
        edges := [], root := rootTitle } [rootTitle] 1 D
      (by intro v hv; rcases List.mem_singleton.mp hv with rfl; exact Nat.zero_le D)
      (by omega)
    unfold maxDepthObserved
    refine foldr_max_le _ D ?_
    intro x hx
    rcases List.mem_map.mp hx with ⟨v, hv, rfl⟩
    exact hdep v hv
  · intro e he
    exact bfsLoop_nd outl [] N D _ [rootTitle] 1
      (by intro f hf; rcases List.mem_singleton.mp hf with rfl
          unfold hasNode; simp)
      (by intro e' he'; cases he') e he
  · intro pre d f st t hcap
    exact processOutlink_nodes_at_cap pre N d f st t hcap
  · intro pre d f st t ht hsub
    have hres : processOutlink pre N d f st t =
        { st with g := { st.g with edges := addEdgeMerge pre st.g.edges f t } } := by
      unfold processOutlink
      rw [if_pos ht]
    rw [hres]
    exact edgeMem_addEdgeMerge_self pre st.g.edges f t (hsub f t)

/-- C1 witness: the bounds hold at a concrete run that saturates the node
cap of 3 with maxDepth 2, where a capped step inserts no node but still
records the edge to a present target. -/
theorem c1_explore_bounded_witness :
    1 ≤ 3 ∧ nodeCount (explore outlW titleA 2 3) ≤ 3 ∧
    maxDepthObserved (explore outlW titleA 2 3) ≤ 2 ∧
    noDangling (explore outlW titleA 2 3) ∧
    (processOutlink [] 3 2 titleB { g := explore outlW titleA 2 3, fresh := [] }
        titleD).g.nodes = (explore outlW titleA 2 3).nodes ∧
    edgeMem (processOutlink [] 3 2 titleB { g := explore outlW titleA 2 3, fresh := [] }
        titleC).g.edges titleB titleC = true :=
  ⟨by decide,
   (c1_explore_bounded outlW titleA 2 3 (by decide)).1,
   (c1_explore_bounded outlW titleA 2 3 (by decide)).2.1,
   (c1_explore_bounded outlW titleA 2 3 (by decide)).2.2.1,
   (c1_explore_bounded outlW titleA 2 3 (by decide)).2.2.2.1 [] 2 titleB
     { g := explore outlW titleA 2 3, fresh := [] } titleD (by decide),
   (c1_explore_bounded outlW titleA 2 3 (by decide)).2.2.2.2 [] 2 titleB
     { g := explore outlW titleA 2 3, fresh := [] } titleC (by decide)
     (fun a b hab => Bool.noConfusion hab)⟩

/-- C2: with the target node present and an unchanged content source,
`Expand` called twice in succession produces exactly the graph of a single
call: the second call returns the first call's result unchanged, so it
adds no node and inflates no edge weight. -/
theorem c2_expand_idempotent (outl : String → List String) (g : Graph)
    (n : String) (ed N : Nat) (h : hasNode g n = true) :
    expand outl g n ed N = .ok (expandCore outl g n ed N) ∧
    expand outl (expandCore outl g n ed N) n ed N
      = .ok (expandCore outl g n ed N) := by
  constructor
  · unfold expand
    rw [if_pos h]
  · exact expand_second_noop outl g n ed N h

/-- C2 witness: idempotence at a concrete single-node graph and content
source. -/
theorem c2_expand_idempotent_witness :
    hasNode gW titleA = true ∧
    expand outlW (expandCore outlW gW titleA 1 5) titleA 1 5
      = .ok (expandCore outlW gW titleA 1 5) :=
  ⟨by decide, (c2_expand_idempotent outlW gW titleA 1 5 (by decide)).2⟩

/-- C3: no graph the system displays or produces contains a dangling
edge: every edge passed to vis-network by `transformDataForVis` has both
endpoints among the rendered nodes, and every graph built by `Explore` or
merged by `Expand` keeps all edge endpoints in its node set. -/
theorem c3_no_dangling_edges :
    (∀ (g : FGraph), ∀ e ∈ (transformDataForVis g).2,
      (∃ v ∈ (transformDataForVis g).1, v.id = e.src) ∧
      (∃ v ∈ (transformDataForVis g).1, v.id = e.dst)) ∧
    (∀ (outl : String → List String) (rootTitle : String) (D N : Nat),
      noDangling (explore outl rootTitle D N)) ∧
    (∀ (outl : String → List String) (g : Graph) (n : String) (ed N : Nat),
      noDangling g → noDangling (expandCore outl g n ed N)) := by
  refine ⟨fun g => transform_endpoints g, ?_, ?_⟩
  · intro outl rootTitle D N e he
    exact bfsLoop_nd outl [] N D _ [rootTitle] 1
      (by intro f hf; rcases List.mem_singleton.mp hf with rfl
          unfold hasNode; simp)
      (by intro e' he'; cases he') e he
  · intro outl g n ed N hnd
    unfold expandCore
    cases hd : depthOf g n with
    | none => exact hnd
    | some d0 =>
      have hn : hasNode g n = true := by
        rw [hasNode_iff_depthOf_isSome, hd]
        rfl
      intro e he
      exact bfsLoop_nd outl g.edges N ed g [n] (d0 + 1)
        (by intro f hf; rcases List.mem_singleton.mp hf with rfl; exact hn)
        hnd e he

/-- C3 witness: at the concrete payload `fgW`, the surviving edge's
endpoints are rendered, and a concrete build and merge are dangling-free. -/
theorem c3_no_dangling_edges_witness :
    visEdgeW ∈ (transformDataForVis fgW).2 ∧
    (∃ v ∈ (transformDataForVis fgW).1, v.id = visEdgeW.src) ∧
    (∃ v ∈ (transformDataForVis fgW).1, v.id = visEdgeW.dst) ∧
    noDangling gW ∧ noDangling (expandCore outlW gW titleA 1 5) :=
  ⟨by decide,
   (c3_no_dangling_edges.1 fgW visEdgeW (by decide)).1,
   (c3_no_dangling_edges.1 fgW visEdgeW (by decide)).2,
   by intro e he; exact absurd he (List.not_mem_nil e),
   c3_no_dangling_edges.2.2 outlW gW titleA 1 5
     (by intro e he; exact absurd he (List.not_mem_nil e))⟩

/-- C4: a node's depth is assigned exactly once, at first discovery: a
depth recorded for an id survives any further BFS levels and any
expansion unchanged, and every node inserted while processing one depth
level receives that level's depth regardless of the traversal order of
the frontier within the level. -/
theorem c4_depth_first_discovery :
    (∀ (outl : String → List String) (pre : List Edge) (N lvls : Nat)
        (g : Graph) (fr : List String) (d : Nat) (i : String) (k : Nat),
      depthOf g i = some k →
      depthOf (bfsLoop outl pre N lvls g fr d) i = some k) ∧
    (∀ (outl : String → List String) (g : Graph) (n : String) (ed N : Nat)
        (i : String) (k : Nat),
      depthOf g i = some k →
      depthOf (expandCore outl g n ed N) i = some k) ∧
    (∀ (outl : String → List String) (pre : List Edge) (N d : Nat)
        (g : Graph) (fr : List String),
      ∀ v ∈ (processLevel outl pre N d g fr).g.nodes,
        v ∈ g.nodes ∨ v.depth = d) := by
  refine ⟨?_, ?_, ?_⟩
  · intro outl pre N lvls g fr d i k h
    exact bfsLoop_depthOf_eq outl pre N lvls g fr d i k h
  · intro outl g n ed N i k h
    unfold expandCore
    cases hd : depthOf g n with
    | none => exact h
    | some d0 => exact bfsLoop_depthOf_eq outl g.edges N ed g [n] (d0 + 1) i k h
  · intro outl pre N d g fr
    refine processLevel_pres
      (P := fun g' => ∀ v ∈ g'.nodes, v ∈ g.nodes ∨ v.depth = d)
      (fun f st t hp => ?_) outl g fr (fun v hv => Or.inl hv)
    rcases processOutlink_nodes_shape pre N d f st t with hs | hs <;> rw [hs]
    · exact hp
    · intro v hv
      rcases List.mem_append.mp hv with hv | hv
      · exact hp v hv
      · rcases List.mem_singleton.mp hv with rfl
        exact Or.inr rfl

/-- C4 witness: the root's depth 0 in `gW` survives a concrete BFS run
and a concrete expansion, and a node inserted at a concrete level carries
that level's depth. -/
theorem c4_depth_first_discovery_witness :
    depthOf gW titleA = some 0 ∧
    depthOf (bfsLoop outlW [] 5 1 gW [titleA] 1) titleA = some 0 ∧
    depthOf (expandCore outlW gW titleA 1 5) titleA = some 0 ∧
    ({ id := titleB, title := titleB, depth := 1 } ∈ gW.nodes ∨
      ({ id := titleB, title := titleB, depth := 1 } : Engine.Node).depth = 1) :=
  ⟨by decide,
   c4_depth_first_discovery.1 outlW [] 5 1 gW [titleA] 1 titleA 0 (by decide),
   c4_depth_first_discovery.2.1 outlW gW titleA 1 5 titleA 0 (by decide),
   c4_depth_first_discovery.2.2 outlW [] 5 1 gW [titleA]
     { id := titleB, title := titleB, depth := 1 } (by decide)⟩

/-- C5: every graph built by `Explore` or merged by `Expand` holds at most
one edge record per ordered pair, each of weight at least 1, and a second
discovery of a pair within a call increments that record's weight without
adding a record. -/
theorem c5_edge_weight_discipline :
    (∀ (outl : String → List String) (rootTitle : String) (D N : Nat),
      pairsNodup (explore outl rootTitle D N).edges ∧
      weightsPos (explore outl rootTitle D N).edges) ∧
    (∀ (outl : String → List String) (g : Graph) (n : String) (ed N : Nat),
      pairsNodup g.edges → weightsPos g.edges →
      pairsNodup (expandCore outl g n ed N).edges ∧
      weightsPos (expandCore outl g n ed N).edges) ∧
    (∀ (es : List Edge) (f t : String), edgeMem es f t = true →
      (addEdgeMerge [] es f t).length = es.length ∧
      weightOf (addEdgeMerge [] es f t) f t
        = (weightOf es f t).map (fun w => w + 1)) := by
  refine ⟨?_, ?_, ?_⟩
  · intro outl rootTitle D N
    exact bfsLoop_edges_inv outl [] N D _ [rootTitle] 1
      ⟨List.nodup_nil, fun e he => absurd he (List.not_mem_nil e)⟩
  · intro outl g n ed N h1 h2
    unfold expandCore
    cases hd : depthOf g n with
    | none => exact ⟨h1, h2⟩
    | some d0 => exact bfsLoop_edges_inv outl g.edges N ed g [n] (d0 + 1) ⟨h1, h2⟩
  · intro es f t h
    exact addEdgeMerge_second_discovery es f t h

/-- C5 witness: rediscovering a concrete present pair keeps one record
and bumps its weight from 1 to 2; a concrete merge keeps the invariants. -/
theorem c5_edge_weight_discipline_witness :
    edgeMem [{ src := titleA, dst := titleB, weight := 1 }] titleA titleB = true ∧
    (addEdgeMerge [] [{ src := titleA, dst := titleB, weight := 1 }] titleA titleB).length = 1 ∧
    weightOf (addEdgeMerge [] [{ src := titleA, dst := titleB, weight := 1 }] titleA titleB)
      titleA titleB = some 2 ∧
    pairsNodup (expandCore outlW gW titleA 1 5).edges :=
  ⟨by decide,
   (c5_edge_weight_discipline.2.2 [{ src := titleA, dst := titleB, weight := 1 }]
      titleA titleB (by decide)).1,
   by rw [(c5_edge_weight_discipline.2.2 [{ src := titleA, dst := titleB, weight := 1 }]
      titleA titleB (by decide)).2]; rfl,
   (c5_edge_weight_discipline.2.1 outlW gW titleA 1 5 List.nodup_nil
      (fun e he => absurd he (List.not_mem_nil e))).1⟩

/-- C6: a build or expand call running under the soft time budget never
fails when the budget runs out: it returns, as a success, exactly the
graph constructed up to the point the budget allowed. -/
theorem c6_budget_returns_partial :
    (∀ (outl : String → List String) (b : Nat) (rootTitle : String) (D N : Nat),
      exploreWithBudget outl b rootTitle D N
        = .ok (explore outl rootTitle (min D b) N)) ∧
    (∀ (outl : String → List String) (b : Nat) (g : Graph) (n : String)
        (ed N : Nat), hasNode g n = true →
      expandWithBudget outl b g n ed N
        = .ok (expandCore outl g n (min ed b) N)) := by
  refine ⟨?_, ?_⟩
  · intro outl b rootTitle D N
    exact exploreWithBudget_eq outl b rootTitle D N
  · intro outl b g n ed N h
    exact (expandWithBudget_eq outl b g n ed N h).1

/-- C6 witness: a concrete expand whose budget of 1 level cuts a 2-level
request still succeeds with the 1-level graph. -/
theorem c6_budget_returns_partial_witness :
    hasNode gW titleA = true ∧
    expandWithBudget outlW 1 gW titleA 2 5
      = .ok (expandCore outlW gW titleA (min 2 1) 5) :=
  ⟨by decide, c6_budget_returns_partial.2 outlW 1 gW titleA 2 5 (by decide)⟩

/-- C7: when `k ≥ 1` callers concurrently request the same entity while it
is uncached and not in flight, exactly one outbound network call is
issued, and on completion every one of the `k` callers is delivered the
single fetch's content. -/
theorem c7_fetch_coalescing (s : CoordState) (id content : String)
    (callers : List Nat) (hne : callers ≠ [])
    (hc : lookupKey s.cache id = none)
    (hi : lookupKey s.inflight id = none) :
    (runEvents s (coalesceTrace callers id content)).1.networkCalls
      = s.networkCalls + 1 ∧
    (runEvents s (coalesceTrace callers id content)).2
      = callers.map (fun c => (c, content)) :=
  coalesce_run s id content callers hne hc hi

/-- C7 witness: three concrete concurrent callers for an uncached entity
trigger one network call and all three deliveries. -/
theorem c7_fetch_coalescing_witness :
    callersW ≠ [] ∧
    lookupKey coordW.cache titleA = none ∧
    (runEvents coordW (coalesceTrace callersW titleA contentW)).1.networkCalls
      = coordW.networkCalls + 1 ∧
    (runEvents coordW (coalesceTrace callersW titleA contentW)).2
      = callersW.map (fun c => (c, contentW)) :=
  ⟨by decide, by decide,
   (c7_fetch_coalescing coordW titleA contentW callersW (by decide)
      (by decide) (by decide)).1,
   (c7_fetch_coalescing coordW titleA contentW callersW (by decide)
      (by decide) (by decide)).2⟩

/-- C8: the explorer page destructures `expandNodeSilently` from the graph
store, but the store defines no such member, so whatever semantics that
action would have, a node click's silent-expansion block always takes the
catch path: it logs one warning, leaves the current graph untouched and
issues no expansion request. -/
theorem c8_silent_expansion_never_runs :
    graphStoreMembers.contains silentExpandName = false ∧
    (∀ (act : String → Nat → PageModel → PageModel) (st : PageModel)
        (nodeId : String),
      (handleNodeClickSilent act st nodeId).currentGraph = st.currentGraph ∧
      (handleNodeClickSilent act st nodeId).expandRequestsIssued
        = st.expandRequestsIssued ∧
      (handleNodeClickSilent act st nodeId).warningsLogged
        = st.warningsLogged + 1) := by
  constructor
  · decide
  · intro act st nodeId
    unfold handleNodeClickSilent lookupStoreMember
    rw [if_neg (by decide : ¬(graphStoreMembers.contains silentExpandName = true))]
    exact ⟨rfl, rfl, rfl⟩

/-- C9: when the underlying API call rejects, `exploreFromNode` and
`expandNode` leave the current graph exactly as it was, record the failure
message in the error field, and end with the loading flag cleared. -/
theorem c9_store_error_paths :
    (∀ (s : StoreState) (title m : String),
      (exploreFromNodeRun s title (.error m)).currentGraph = s.currentGraph ∧
      (exploreFromNodeRun s title (.error m)).error = some m ∧
      (exploreFromNodeRun s title (.error m)).isLoading = false) ∧
    (∀ (s : StoreState) (g : FGraph) (m : String), s.currentGraph = some g →
      (expandNodeRun s (.error m)).currentGraph = some g ∧
      (expandNodeRun s (.error m)).error = some m ∧
      (expandNodeRun s (.error m)).isLoading = false) := by
  constructor
  · intro s title m
    exact ⟨rfl, rfl, rfl⟩
  · intro s g m h
    unfold expandNodeRun
    rw [h]
    exact ⟨rfl, rfl, rfl⟩

/-- C9 witness: a concrete rejected explore and a concrete rejected
expand on the loaded store state. -/
theorem c9_store_error_paths_witness :
    storeW.currentGraph = some fgW ∧
    (exploreFromNodeRun storeW titleB (.error errW)).currentGraph
      = storeW.currentGraph ∧
    (expandNodeRun storeW (.error errW)).currentGraph = some fgW ∧
    (expandNodeRun storeW (.error errW)).error = some errW ∧
    (expandNodeRun storeW (.error errW)).isLoading = false :=
  ⟨rfl,
   (c9_store_error_paths.1 storeW titleB errW).1,
   (c9_store_error_paths.2 storeW fgW errW rfl).1,
   (c9_store_error_paths.2 storeW fgW errW rfl).2.1,
   (c9_store_error_paths.2 storeW fgW errW rfl).2.2⟩

/-- C10: `exploreGraph` sends the `max_nodes` query parameter exactly when
the `maxNodes` argument is provided and non-zero; passing 0 silently
omits the parameter, exactly like omitting the argument. -/
theorem c10_max_nodes_truthiness :
    ∀ (d : Nat) (mn : Option Nat),
      ((exploreGraphParams d mn).max_nodes.isSome = true ↔
        ∃ n, mn = some n ∧ n ≠ 0) ∧
      (exploreGraphParams d (some 0)).max_nodes = none ∧
      (exploreGraphParams d (some 0)) = exploreGraphParams d none ∧
      (∀ n : Nat, (exploreGraphParams d (some n)).max_nodes
          = if n = 0 then none else some n) := by
  intro d mn
  refine ⟨?_, rfl, rfl, ?_⟩
  · cases mn with
    | none => simp [exploreGraphParams, jsTruthyOptNat]
    | some n =>
      by_cases hn : n = 0
      · subst hn
        simp [exploreGraphParams, jsTruthyOptNat]
      · simp [exploreGraphParams, jsTruthyOptNat, hn]
  · intro n
    by_cases hn : n = 0
    · subst hn
      simp [exploreGraphParams, jsTruthyOptNat]
    · simp [exploreGraphParams, jsTruthyOptNat, hn]
